import Mathlib

/-!
Shallow embedding of the git-secret-scanner core (src/scanner.py and
src/llm_utils.py).

Strings are modelled as `List Char`.  Python float arithmetic on entropy
values is modelled over `ℝ` (so `shannon_entropy` and everything built on
it is noncomputable, while all text processing stays executable).  Python
dicts holding findings and classifier verdicts are modelled as structures
whose optionally-present keys are `Option` fields.  The f-string rendering
of the rationale message embeds its data (which scan produced it, the
matched rule label, and the entropy value) rather than a formatted float,
since decimal formatting of floats has no counterpart on `ℝ`.
-/

namespace GitSecretScanner

/-- Python whitespace for `str.strip` / `str.split()` and the regex class
backslash-s (ASCII range, which is all that diff text contains). -/
def pyIsSpace (c : Char) : Bool :=
  c = ' ' || c = '\t' || c = '\n' || c = '\r' || c = '\x0b' || c = '\x0c'

/-- Python `str.splitlines`, restricted to the newline separator
(the only separator occurring in git diff / commit-message text):
no trailing empty line for text ending in a newline, `[]` for `""`. -/
def splitlinesAux : List Char → List Char → List (List Char)
  | [], acc => [acc.reverse]
  | c :: rest, acc =>
    if c = '\n' then
      match rest with
      | [] => [acc.reverse]
      | _ :: _ => acc.reverse :: splitlinesAux rest []
    else splitlinesAux rest (c :: acc)

/-- Python `str.splitlines` (see `splitlinesAux`). -/
def splitlines (s : List Char) : List (List Char) :=
  if s = [] then [] else splitlinesAux s []

/-- Python `str.split()` with no argument: split on whitespace runs,
discarding empty fields. -/
def splitWSAux : List Char → List Char → List (List Char)
  | [], acc => if acc = [] then [] else [acc.reverse]
  | c :: rest, acc =>
    if pyIsSpace c then
      if acc = [] then splitWSAux rest []
      else acc.reverse :: splitWSAux rest []
    else splitWSAux rest (c :: acc)

/-- Python `str.split()` with no argument. -/
def splitWS (s : List Char) : List (List Char) := splitWSAux s []

/-- Python `str.strip()`: remove leading and trailing whitespace. -/
def pyStrip (s : List Char) : List Char :=
  ((s.dropWhile pyIsSpace).reverse.dropWhile pyIsSpace).reverse

/-- Python `str.rstrip("\n")`: remove trailing newlines. -/
def rstripNL (s : List Char) : List Char :=
  (s.reverse.dropWhile (fun c => c = '\n')).reverse

/-- Python `str.lower()` (ASCII). -/
def pyLower (s : List Char) : List Char := s.map Char.toLower

/-- Whether `s` starts with `p` (Python `str.startswith`). -/
def startsWith : List Char → List Char → Bool
  | _, [] => true
  | [], _ :: _ => false
  | c :: s, p :: ps => c = p && startsWith s ps

/-- Regex word character (backslash-w over the ASCII range): used for the
word-boundary anchors in the secret-detection patterns. -/
def isWordChar (c : Char) : Bool := c.isAlpha || c.isDigit || c = '_'

/-- Case-insensitive literal keyword match at the head of `s` (the pattern
`kw` is given lowercase); returns the remainder on success.  Models a
`(?i)`-alternative of the keyword groups in REGEX_PATTERNS. -/
def matchKeyword : List Char → List Char → Option (List Char)
  | s, [] => some s
  | [], _ :: _ => none
  | c :: s, k :: ks => if c.toLower = k then matchKeyword s ks else none

/-- The regex tail after the keyword group:
backslash-s* then the character = then backslash-s* then a quote, then at
least 4 characters of the value class `cls`, then a quote.  The two quote
positions each accept either a double or a single quote, exactly as the
regex class does.  Both value classes used below exclude the quote
characters, so greedy matching of the `{4,}`-repetition is equivalent to
taking the maximal run of class characters and requiring the next
character to be a quote. -/
def matchAssignValue (cls : Char → Bool) (s : List Char) : Bool :=
  match (s.dropWhile pyIsSpace) with
  | '=' :: s2 =>
    match (s2.dropWhile pyIsSpace) with
    | q :: s4 =>
      if q = '"' || q = '\'' then
        match s4.dropWhile cls with
        | q2 :: _ => (q2 = '"' || q2 = '\'') && decide (4 ≤ (s4.takeWhile cls).length)
        | [] => false
      else false
    | [] => false
  | _ => false

/-- Word boundary on the left of a keyword occurrence: start of line or a
non-word previous character (the keyword itself starts with a word
character). -/
def boundaryBefore : Option Char → Bool
  | none => true
  | some c => !isWordChar c

/-- Word boundary on the right of a keyword occurrence: end of line or a
non-word next character (the keyword itself ends with a word character). -/
def boundaryAfter : List Char → Bool
  | [] => true
  | c :: _ => !isWordChar c

/-- Whether one of the keywords matches at the current position with both
word boundaries and the assignment-value tail. -/
def matchHere (kws : List (List Char)) (cls : Char → Bool)
    (prev : Option Char) (s : List Char) : Bool :=
  boundaryBefore prev &&
    kws.any (fun k =>
      match matchKeyword s k with
      | some rest => boundaryAfter rest && matchAssignValue cls rest
      | none => false)

/-- Regex `search` semantics: try every start position left to right.
`prev` is the character before the current position (for the boundary
anchor).  Since success of the whole pattern is an existence property,
trying keyword alternatives in any order and positions left to right is
equivalent to the backtracking search Python performs. -/
def searchRuleAux (kws : List (List Char)) (cls : Char → Bool) :
    Option Char → List Char → Bool
  | prev, s =>
    matchHere kws cls prev s ||
      match s with
      | [] => false
      | c :: rest => searchRuleAux kws cls (some c) rest

/-- Regex `search` over a whole line for one detection rule. -/
def searchRule (kws : List (List Char)) (cls : Char → Bool) (s : List Char) : Bool :=
  searchRuleAux kws cls none s

/-- Value class of the password and secret rules: any character other than
a quote (the regex class excluding the two quote characters). -/
def pwValueChar (c : Char) : Bool := !(c = '"' || c = '\'')

/-- Value class of the token rule: `[A-Za-z0-9_\-=/+]`. -/
def tokenValueChar (c : Char) : Bool :=
  c.isAlpha || c.isDigit || c = '_' || c = '-' || c = '=' || c = '/' || c = '+'

/-- One entry of REGEX_PATTERNS: compiled matcher, label, finding type. -/
structure Rule where
  search : List Char → Bool
  pattern_name : List Char
  finding_type : List Char

/-- The password rule (first in priority order). -/
def passwordRule : Rule :=
  { search := searchRule
      ["password".toList, "pwd".toList, "pass".toList, "user_password".toList]
      pwValueChar
    pattern_name := "password assignment".toList
    finding_type := "hardcoded_password".toList }

/-- The token rule (second in priority order). -/
def tokenRule : Rule :=
  { search := searchRule
      ["token".toList, "api_token".toList, "auth_token".toList]
      tokenValueChar
    pattern_name := "token assignment".toList
    finding_type := "hardcoded_token".toList }

/-- The secret rule (third in priority order). -/
def secretRule : Rule :=
  { search := searchRule
      ["secret".toList, "secret_key".toList, "private_key".toList]
      pwValueChar
    pattern_name := "secret assignment".toList
    finding_type := "hardcoded_secret".toList }

/-- REGEX_PATTERNS from src/scanner.py: the rule list in priority order. -/
def REGEX_PATTERNS : List Rule := [passwordRule, tokenRule, secretRule]

/-- The per-line `for regex, ... in REGEX_PATTERNS: if regex.search(...):
... break` loop: first rule whose matcher succeeds, or none. -/
def firstMatch : List Rule → List Char → Option Rule
  | [], _ => none
  | r :: rs, l => if r.search l then some r else firstMatch rs l

/-- Shannon entropy of a string (src/scanner.py `shannon_entropy`): the
accumulation `entropy -= p * log-base-2 p` over the `Counter` of the
string, i.e. over its distinct characters. -/
noncomputable def shannon_entropy (s : List Char) : ℝ :=
  if s = [] then 0
  else ∑ c ∈ s.toFinset,
    -(((s.count c : ℝ) / s.length) * Real.logb 2 ((s.count c : ℝ) / s.length))

/-- Confidence tier of an entropy value (src/scanner.py
`entropy_to_confidence`). -/
noncomputable def entropy_to_confidence (entropy : ℝ) : List Char :=
  if entropy < 3.0 then "low".toList
  else if entropy < 4.0 then "medium".toList
  else "high".toList

/-- The data rendered into a finding's rationale f-string: which scan it
came from, the matched rule's label, and the snippet entropy. -/
structure RationaleData where
  from_diff : Bool
  pattern_name : List Char
  entropy : ℝ

/-- A finding dict.  Keys always written by the scanners are plain fields;
keys that may be absent (`confidence` for foreign dicts fed to the
selector, `id` before payload building, the four llm fields before the
merge) are `Option` fields defaulting to `none`. -/
structure Finding where
  commit_hash : List Char
  file_path : List Char
  line : Nat
  snippet : List Char
  ftype : List Char
  confidence : Option (List Char) := none
  rationale : RationaleData
  id : Option (List Char) := none
  llm_is_secret : Option Bool := none
  llm_type : Option (List Char) := none
  llm_confidence : Option (List Char) := none
  llm_comment : Option (List Char) := none

/-- Python `x or "unknown"` on an optional string: both a missing value
and an empty string are falsy and yield `unknown`. -/
def pyOrUnknown : Option (List Char) → List Char
  | some c => if c = [] then "unknown".toList else c
  | none => "unknown".toList

/-- Finding assembled for a matched line of plain text
(src/scanner.py `scan_text_for_passwords` loop body). -/
noncomputable def mkTextFinding (commit_hash file_path : List Char) (n : Nat)
    (code_line : List Char) (r : Rule) : Finding :=
  { commit_hash := commit_hash
    file_path := file_path
    line := n
    snippet := code_line
    ftype := r.finding_type
    confidence := some (entropy_to_confidence (shannon_entropy code_line))
    rationale := ⟨false, r.pattern_name, shannon_entropy code_line⟩ }

/-- Loop of `scan_text_for_passwords` over the enumerated lines. -/
noncomputable def scanTextLines (commit_hash file_path : List Char) :
    Nat → List (List Char) → List Finding
  | _, [] => []
  | n, line :: rest =>
    (match firstMatch REGEX_PATTERNS (rstripNL line) with
     | some r => [mkTextFinding commit_hash file_path n (rstripNL line) r]
     | none => []) ++ scanTextLines commit_hash file_path (n + 1) rest

/-- src/scanner.py `scan_text_for_passwords`.  The Python default
`commit_hash or "unknown"` treats both `None` and `""` as absent. -/
noncomputable def scan_text_for_passwords (text file_path : List Char)
    (commit_hash : Option (List Char)) : List Finding :=
  scanTextLines (pyOrUnknown commit_hash) file_path 1 (splitlines text)

/-- Finding assembled for a matched added line of a diff
(src/scanner.py `scan_diff_for_passwords` loop body). -/
noncomputable def mkDiffFinding (diff_source : List Char)
    (current_file : Option (List Char)) (n : Nat)
    (code_line : List Char) (r : Rule) : Finding :=
  { commit_hash := diff_source
    file_path := pyOrUnknown current_file
    line := n
    snippet := code_line
    ftype := r.finding_type
    confidence := some (entropy_to_confidence (shannon_entropy code_line))
    rationale := ⟨true, r.pattern_name, shannon_entropy code_line⟩ }

/-- Update of the `current_file` state on one diff line: a line starting
with the `+++ ` marker whose whitespace-split has at least two fields sets
the current file to the second field, with a leading `b/` stripped. -/
def updateCurrentFile (cur : Option (List Char)) (line : List Char) :
    Option (List Char) :=
  if startsWith line ("+++ ".toList) then
    match splitWS line with
    | _ :: path :: _ =>
      some (match path with
            | 'b' :: '/' :: rest => rest
            | _ => path)
    | _ => cur
  else cur

/-- Loop of `scan_diff_for_passwords` over the enumerated diff lines,
threading the `current_file` state. -/
noncomputable def scanDiffLines (diff_source : List Char) :
    Option (List Char) → Nat → List (List Char) → List Finding
  | _, _, [] => []
  | cur, n, line :: rest =>
    let cur2 := updateCurrentFile cur line
    let stripped := pyStrip line
    (if startsWith stripped ['+'] && !startsWith stripped ['+', '+', '+'] then
      match firstMatch REGEX_PATTERNS stripped.tail with
      | some r => [mkDiffFinding diff_source cur2 n stripped.tail r]
      | none => []
    else []) ++ scanDiffLines diff_source cur2 (n + 1) rest

/-- src/scanner.py `scan_diff_for_passwords`. -/
noncomputable def scan_diff_for_passwords (diff_text diff_source : List Char) :
    List Finding :=
  scanDiffLines diff_source none 1 (splitlines diff_text)

/-- Decimal digit character of `d < 10` (Python decimal formatting). -/
def digitChar (d : Nat) : Char := Char.ofNat (48 + d)

/-- Decimal digit string of a natural number, as produced by Python
f-string formatting of an `int`. -/
def natDecimal (n : Nat) : List Char :=
  if _h : n < 10 then [digitChar n]
  else natDecimal (n / 10) ++ [digitChar (n % 10)]
  decreasing_by exact Nat.div_lt_self (by omega) (by omega)

/-- The review identifier written by the payload builder:
the Python f-string `f"f{index}"`. -/
def reviewId (index : Nat) : List Char := 'f' :: natDecimal index

/-- The confidence-order dict of `select_llm_candidates`:
low maps to 0, medium to 1, high to 2. -/
def order : List (List Char × Nat) :=
  [("low".toList, 0), ("medium".toList, 1), ("high".toList, 2)]

/-- Python `order.get(key)`: association lookup in the order dict. -/
def orderGet (k : List Char) : Option Nat :=
  (order.find? (fun p => p.1 = k)).map (fun p => p.2)

/-- Loop of `select_llm_candidates` over the findings: keep a finding
when its (lowercased, medium-defaulted) confidence is a known level at
most `min_level`; skip findings whose confidence is not a known level. -/
def selectAux (min_level : Nat) : List Finding → List Finding
  | [] => []
  | f :: rest =>
    match orderGet (pyLower (f.confidence.getD ("medium".toList))) with
    | none => selectAux min_level rest
    | some level =>
      if level ≤ min_level then f :: selectAux min_level rest
      else selectAux min_level rest

/-- src/llm_utils.py `select_llm_candidates`.  The fallback
`order.get(min_confidence, order["medium"])` is the literal level 1. -/
def select_llm_candidates (findings : List Finding)
    (min_confidence : List Char) : List Finding :=
  selectAux ((orderGet min_confidence).getD 1) findings

/-- One item of the outbound classifier payload: exactly the six keys
written by `build_llm_payload` (no finding type, no rationale). -/
structure PayloadItem where
  id : List Char
  commit_hash : List Char
  file_path : List Char
  line : Nat
  snippet : List Char
  confidence : Option (List Char)

/-- Loop of `build_llm_payload` over the enumerated candidates: assigns
`f{index}` into the candidate's id field (an in-place mutation in Python,
so the updated candidate list is returned alongside the payload) and
projects the six payload keys. -/
def buildPayloadAux : Nat → List Finding → List PayloadItem × List Finding
  | _, [] => ([], [])
  | index, f :: rest =>
    let ids := reviewId index
    let f2 : Finding := { f with id := some ids }
    let item : PayloadItem :=
      { id := ids
        commit_hash := f.commit_hash
        file_path := f.file_path
        line := f.line
        snippet := f.snippet
        confidence := f.confidence }
    ((buildPayloadAux (index + 1) rest).1.cons item,
     (buildPayloadAux (index + 1) rest).2.cons f2)

/-- src/llm_utils.py `build_llm_payload`: the returned payload list, paired
with the candidate findings as mutated by the id assignment. -/
def build_llm_payload (candidates : List Finding) :
    List PayloadItem × List Finding :=
  buildPayloadAux 1 candidates

/-- One classifier verdict dict as consumed by `merge_llm_results`, which
reads every key with `.get`: all fields may be absent. -/
structure Verdict where
  id : Option (List Char)
  is_secret : Option Bool
  llm_type : Option (List Char)
  llm_confidence : Option (List Char)
  llm_comment : Option (List Char)
deriving DecidableEq

/-- The `results_by_id` index of `merge_llm_results`: successive dict
writes keyed on each verdict's id (verdicts without an id are skipped,
a later verdict with the same id overwrites an earlier one). -/
def resultsById (llm_results : List Verdict) : List Char → Option Verdict :=
  llm_results.foldl
    (fun m r =>
      match r.id with
      | some rid => fun k => if k = rid then some r else m k
      | none => m)
    (fun _ => none)

/-- Merge of one finding (loop body of `merge_llm_results`): findings
without an id, or whose id is not in the index, are untouched; otherwise
the four llm keys are written from the verdict. -/
def mergeOne (lookup : List Char → Option Verdict) (f : Finding) : Finding :=
  match f.id with
  | none => f
  | some fid =>
    match lookup fid with
    | none => f
    | some r =>
      { f with
        llm_is_secret := r.is_secret
        llm_type := r.llm_type
        llm_confidence := r.llm_confidence
        llm_comment := r.llm_comment }

/-- src/llm_utils.py `merge_llm_results`. -/
def merge_llm_results (findings : List Finding) (llm_results : List Verdict) :
    List Finding :=
  findings.map (mergeOne (resultsById llm_results))

/-- The effective confidence level the selector computes for a finding:
lowercase the confidence (defaulting a missing one to medium) and look it
up in the order dict. -/
def effectiveLevel (f : Finding) : Option Nat :=
  orderGet (pyLower (f.confidence.getD ("medium".toList)))

lemma mem_selectAux (min_level : Nat) (fs : List Finding) (f : Finding) :
    f ∈ selectAux min_level fs ↔
      f ∈ fs ∧ ∃ l, effectiveLevel f = some l ∧ l ≤ min_level := by
  induction fs with
  | nil => simp [selectAux]
  | cons g rest ih =>
    simp only [selectAux]
    cases hg : orderGet (pyLower (g.confidence.getD ("medium".toList))) with
    | none =>
      constructor
      · intro h
        exact ⟨List.mem_cons_of_mem _ (ih.mp h).1, (ih.mp h).2⟩
      · rintro ⟨hmem, l, hl, hle⟩
        rcases List.mem_cons.mp hmem with rfl | hmem
        · rw [effectiveLevel, hg] at hl; cases hl
        · exact ih.mpr ⟨hmem, l, hl, hle⟩
    | some lv =>
      dsimp only
      by_cases hle : lv ≤ min_level
      · rw [if_pos hle]
        constructor
        · intro h
          rcases List.mem_cons.mp h with rfl | h
          · exact ⟨List.mem_cons_self _ _, lv, by rw [effectiveLevel, hg], hle⟩
          · exact ⟨List.mem_cons_of_mem _ (ih.mp h).1, (ih.mp h).2⟩
        · rintro ⟨hmem, l, hl, hl2⟩
          rcases List.mem_cons.mp hmem with rfl | hmem
          · exact List.mem_cons_self _ _
          · exact List.mem_cons_of_mem _ (ih.mpr ⟨hmem, l, hl, hl2⟩)
      · rw [if_neg hle]
        constructor
        · intro h
          exact ⟨List.mem_cons_of_mem _ (ih.mp h).1, (ih.mp h).2⟩
        · rintro ⟨hmem, l, hl, hl2⟩
          rcases List.mem_cons.mp hmem with rfl | hmem
          · rw [effectiveLevel, hg] at hl
            injection hl with hl
            subst hl
            exact absurd hl2 hle
          · exact ih.mpr ⟨hmem, l, hl, hl2⟩

/-- C7: the confidence classifier is total and boundary-exact: every
entropy below 3.0 maps to low, every entropy in [3.0, 4.0) to medium,
every entropy at or above 4.0 to high; in particular 3.0 maps to medium
and 4.0 maps to high. -/
theorem C7_entropy_to_confidence_boundary_exact (e : ℝ) :
    (e < 3 → entropy_to_confidence e = "low".toList) ∧
    ((3 ≤ e ∧ e < 4) → entropy_to_confidence e = "medium".toList) ∧
    (4 ≤ e → entropy_to_confidence e = "high".toList) ∧
    entropy_to_confidence 3 = "medium".toList ∧
    entropy_to_confidence 4 = "high".toList := by
  have key : ∀ x : ℝ,
      (x < 3 → entropy_to_confidence x = "low".toList) ∧
      ((3 ≤ x ∧ x < 4) → entropy_to_confidence x = "medium".toList) ∧
      (4 ≤ x → entropy_to_confidence x = "high".toList) := by
    intro x
    simp only [entropy_to_confidence]
    rw [show (3.0 : ℝ) = 3 by norm_num, show (4.0 : ℝ) = 4 by norm_num]
    split_ifs with h1 h2
    · exact ⟨fun _ => rfl, fun hx => False.elim (by linarith [hx.1]),
        fun hx => False.elim (by linarith)⟩
    · exact ⟨fun hx => False.elim (by linarith), fun _ => rfl,
        fun hx => False.elim (by linarith)⟩
    · exact ⟨fun hx => False.elim (by linarith), fun hx => False.elim (by linarith [hx.2]),
        fun _ => rfl⟩
  refine ⟨(key e).1, (key e).2.1, (key e).2.2, ?_, ?_⟩
  · exact (key 3).2.1 ⟨le_refl 3, by norm_num⟩
  · exact (key 4).2.2 (le_refl 4)

/-- Witness for C7 at concrete entropies 2, 3.5 and 5. -/
theorem C7_witness :
    entropy_to_confidence 2 = "low".toList ∧
    entropy_to_confidence (7 / 2) = "medium".toList ∧
    entropy_to_confidence 5 = "high".toList :=
  ⟨(C7_entropy_to_confidence_boundary_exact 2).1 (by norm_num),
   (C7_entropy_to_confidence_boundary_exact (7 / 2)).2.1 (by norm_num),
   (C7_entropy_to_confidence_boundary_exact 5).2.2.1 (by norm_num)⟩

/-- C5: for a valid threshold, a finding is selected iff its effective
confidence level is a known ordinal at most the threshold ordinal
(low 0, medium 1, high 2); in particular under threshold medium a
high-confidence finding is never selected, a low- or medium-confidence
finding always is, and a finding with an unrecognized confidence value is
never selected (for any threshold). -/
theorem C5_selection_iff_ordinal_le (findings : List Finding)
    (t : List Char) (f : Finding)
    (ht : t = "low".toList ∨ t = "medium".toList ∨ t = "high".toList) :
    (f ∈ select_llm_candidates findings t ↔
      f ∈ findings ∧ ∃ l, effectiveLevel f = some l ∧ l ≤ (orderGet t).getD 1) ∧
    (t = "medium".toList → f.confidence = some ("high".toList) →
      f ∉ select_llm_candidates findings t) ∧
    (t = "medium".toList → f ∈ findings →
      (f.confidence = some ("low".toList) ∨ f.confidence = some ("medium".toList)) →
      f ∈ select_llm_candidates findings t) ∧
    (effectiveLevel f = none → f ∉ select_llm_candidates findings t) := by
  have hmain : ∀ u : List Char, f ∈ select_llm_candidates findings u ↔
      f ∈ findings ∧ ∃ l, effectiveLevel f = some l ∧ l ≤ (orderGet u).getD 1 := by
    intro u
    exact mem_selectAux ((orderGet u).getD 1) findings f
  refine ⟨hmain t, ?_, ?_, ?_⟩
  · rintro rfl hconf hmem
    rcases (hmain _).mp hmem with ⟨-, l, hl, hle⟩
    rw [effectiveLevel, hconf, Option.getD_some] at hl
    have h2 : orderGet (pyLower ("high".toList)) = some 2 := by decide
    have h1 : (orderGet ("medium".toList)).getD 1 = 1 := by decide
    rw [h2] at hl
    rw [h1] at hle
    injection hl with hl
    omega
  · rintro rfl hmem hconf
    refine (hmain _).mpr ⟨hmem, ?_⟩
    rcases hconf with h | h <;> rw [effectiveLevel, h]
    · exact ⟨0, by decide, by decide⟩
    · exact ⟨1, by decide, by decide⟩
  · intro hnone hmem
    rcases (hmain t).mp hmem with ⟨-, l, hl, -⟩
    rw [hnone] at hl
    cases hl

/-- Witness for C5 on a one-finding list at threshold medium. -/
theorem C5_witness :
    ({ commit_hash := [], file_path := [], line := 1, snippet := [],
       ftype := [], confidence := some ("low".toList),
       rationale := ⟨true, [], 0⟩ } : Finding) ∈
      select_llm_candidates
        [{ commit_hash := [], file_path := [], line := 1, snippet := [],
           ftype := [], confidence := some ("low".toList),
           rationale := ⟨true, [], 0⟩ }] ("medium".toList) :=
  (C5_selection_iff_ordinal_le _ ("medium".toList) _
      (Or.inr (Or.inl rfl))).2.2.1 rfl (List.mem_singleton.mpr rfl) (Or.inl rfl)

/-- C10: a finding with no confidence key is treated as medium (so it is
selected under the default medium threshold), confidence comparison is
case-insensitive (HIGH is the level of high), and an unrecognized
min_confidence threshold falls back to the medium threshold. -/
theorem C10_selector_defaults_and_case (fs : List Finding) (f : Finding) :
    (f.confidence = none → effectiveLevel f = some 1) ∧
    (f.confidence = none → f ∈ fs → f ∈ select_llm_candidates fs ("medium".toList)) ∧
    (f.confidence = some ("HIGH".toList) → effectiveLevel f = some 2) ∧
    (f.confidence = some ("HIGH".toList) → f ∈ fs →
      f ∈ select_llm_candidates fs ("high".toList)) ∧
    (∀ t : List Char, orderGet t = none →
      select_llm_candidates fs t = select_llm_candidates fs ("medium".toList)) := by
  refine ⟨?_, ?_, ?_, ?_, ?_⟩
  · intro h; rw [effectiveLevel, h]; decide
  · intro h hmem
    refine (mem_selectAux _ fs f).mpr ⟨hmem, 1, ?_, by decide⟩
    rw [effectiveLevel, h]; decide
  · intro h; rw [effectiveLevel, h]; decide
  · intro h hmem
    refine (mem_selectAux _ fs f).mpr ⟨hmem, 2, ?_, ?_⟩
    · rw [effectiveLevel, h]; decide
    · decide
  · intro t ht
    rw [select_llm_candidates, select_llm_candidates, ht]
    rfl

/-- Witness for C10: a finding without a confidence key is selected under
the medium threshold, and threshold `bogus` behaves as medium. -/
theorem C10_witness :
    (({ commit_hash := [], file_path := [], line := 1, snippet := [],
        ftype := [], confidence := none,
        rationale := ⟨true, [], 0⟩ } : Finding) ∈
      select_llm_candidates
        [{ commit_hash := [], file_path := [], line := 1, snippet := [],
           ftype := [], confidence := none,
           rationale := ⟨true, [], 0⟩ }] ("medium".toList)) ∧
    select_llm_candidates [] ("bogus".toList) =
      select_llm_candidates [] ("medium".toList) :=
  ⟨(C10_selector_defaults_and_case _ _).2.1 rfl (List.mem_singleton.mpr rfl),
   (C10_selector_defaults_and_case []
      ⟨[], [], 1, [], [], none, ⟨true, [], 0⟩, none, none, none, none, none⟩).2.2.2.2
      ("bogus".toList) (by decide)⟩

lemma resultsById_nil (k : List Char) : resultsById [] k = none := rfl

lemma resultsById_append (l : List Verdict) (r : Verdict) (k : List Char) :
    resultsById (l ++ [r]) k =
      match r.id with
      | some rid => if k = rid then some r else resultsById l k
      | none => resultsById l k := by
  cases hr : r.id with
  | none => simp [resultsById, List.foldl_append, hr]
  | some rid => simp [resultsById, List.foldl_append, hr]

lemma resultsById_some (l : List Verdict) (k : List Char) (r : Verdict)
    (h : resultsById l k = some r) : r ∈ l ∧ r.id = some k := by
  induction l using List.reverseRecOn with
  | nil => cases h
  | append_singleton l v ih =>
    rw [resultsById_append] at h
    cases hv : v.id with
    | none =>
      rw [hv] at h
      exact ⟨List.mem_append_left _ (ih h).1, (ih h).2⟩
    | some rid =>
      rw [hv] at h
      dsimp only at h
      by_cases hk : k = rid
      · rw [if_pos hk] at h
        injection h with h
        subst h
        exact ⟨List.mem_append_right _ (List.mem_singleton.mpr rfl), by rw [hv, hk]⟩
      · rw [if_neg hk] at h
        exact ⟨List.mem_append_left _ (ih h).1, (ih h).2⟩

lemma resultsById_of_mem (l : List Verdict) (r : Verdict) (k : List Char)
    (hnd : (l.filterMap (fun v => v.id)).Nodup) (hr : r ∈ l)
    (hid : r.id = some k) : resultsById l k = some r := by
  induction l using List.reverseRecOn with
  | nil => cases hr
  | append_singleton l v ih =>
    rw [List.filterMap_append] at hnd
    rw [resultsById_append]
    rcases List.mem_append.mp hr with hr | hr
    · have hndl : (l.filterMap (fun v => v.id)).Nodup := hnd.of_append_left
      cases hv : v.id with
      | none => exact ih hndl hr
      | some rid =>
        dsimp only
        by_cases hk : k = rid
        · exfalso
          have hdisj := List.disjoint_of_nodup_append hnd
          have hkl : k ∈ l.filterMap (fun v => v.id) :=
            List.mem_filterMap.mpr ⟨r, hr, hid⟩
          have hkr : k ∈ [v].filterMap (fun v => v.id) := by
            simp [hv, hk]
          exact hdisj hkl hkr
        · rw [if_neg hk]
          exact ih hndl hr
    · have hr : r = v := List.mem_singleton.mp hr
      subst hr
      rw [hid]
      dsimp only
      rw [if_pos rfl]

lemma resultsById_perm (l1 l2 : List Verdict) (h : l1.Perm l2)
    (hnd : (l1.filterMap (fun v => v.id)).Nodup) (k : List Char) :
    resultsById l1 k = resultsById l2 k := by
  have hnd2 : (l2.filterMap (fun v => v.id)).Nodup :=
    ((h.filterMap _).nodup_iff).mp hnd
  cases hc : resultsById l1 k with
  | some r =>
    obtain ⟨hm, hid⟩ := resultsById_some _ _ _ hc
    exact (resultsById_of_mem l2 r k hnd2 (h.mem_iff.mp hm) hid).symm
  | none =>
    cases hc2 : resultsById l2 k with
    | none => rfl
    | some r =>
      obtain ⟨hm, hid⟩ := resultsById_some _ _ _ hc2
      have hc3 := resultsById_of_mem l1 r k hnd (h.mem_iff.mpr hm) hid
      rw [hc] at hc3
      cases hc3

/-- C9: the merge removes no finding, leaves untouched every finding
without an id and every finding whose id has no verdict in the index, and
on a matched finding writes exactly the four llm fields from the
verdict. -/
theorem C9_merge_frame (findings : List Finding) (results : List Verdict) :
    (merge_llm_results findings results).length = findings.length ∧
    (∀ i, i < findings.length → ∀ f, findings[i]? = some f →
      ((f.id = none → (merge_llm_results findings results)[i]? = some f) ∧
       (∀ fid, f.id = some fid → resultsById results fid = none →
         (merge_llm_results findings results)[i]? = some f) ∧
       (∀ fid r, f.id = some fid → resultsById results fid = some r →
         (merge_llm_results findings results)[i]? =
           some { f with
                  llm_is_secret := r.is_secret
                  llm_type := r.llm_type
                  llm_confidence := r.llm_confidence
                  llm_comment := r.llm_comment }))) := by
  constructor
  · simp [merge_llm_results]
  · intro i hi f hf
    have hmap : (merge_llm_results findings results)[i]? =
        some (mergeOne (resultsById results) f) := by
      rw [merge_llm_results, List.getElem?_map, hf, Option.map_some']
    refine ⟨?_, ?_, ?_⟩
    · intro hid
      rw [hmap, mergeOne, hid]
    · intro fid hid hnone
      rw [hmap, mergeOne, hid]
      dsimp only
      rw [hnone]
    · intro fid r hid hsome
      rw [hmap, mergeOne, hid]
      dsimp only
      rw [hsome]

/-- A finding carrying no review id, used as concrete witness input. -/
def sampleFindingNoId : Finding :=
  ⟨"c".toList, "p".toList, 1, "s".toList, "t".toList, some ("low".toList),
   ⟨true, [], 0⟩, none, none, none, none, none⟩

/-- A finding carrying review id f1, used as concrete witness input. -/
def sampleFindingF1 : Finding :=
  ⟨"c".toList, "p".toList, 1, "s".toList, "t".toList, some ("low".toList),
   ⟨true, [], 0⟩, some ("f1".toList), none, none, none, none⟩

/-- A verdict for id f1 judging the finding a secret. -/
def verdictTrue : Verdict :=
  ⟨some ("f1".toList), some true, some ("hardcoded_password".toList),
   some ("high".toList), some ("looks real".toList)⟩

/-- A verdict for id f1 judging the finding not a secret. -/
def verdictFalse : Verdict :=
  ⟨some ("f1".toList), some false, some ("not_a_secret".toList),
   some ("low".toList), some ("test data".toList)⟩

/-- A verdict for id f2. -/
def verdictF2 : Verdict :=
  ⟨some ("f2".toList), some true, some ("hardcoded_token".toList),
   some ("medium".toList), some ("other".toList)⟩

/-- Witness for C9 on concrete one-finding lists. -/
theorem C9_witness :
    (merge_llm_results [sampleFindingNoId] [verdictTrue]).length = 1 ∧
    (merge_llm_results [sampleFindingNoId] [verdictTrue])[0]? =
      some sampleFindingNoId ∧
    (merge_llm_results [sampleFindingF1] [verdictF2])[0]? =
      some sampleFindingF1 :=
  ⟨(C9_merge_frame [sampleFindingNoId] [verdictTrue]).1,
   ((C9_merge_frame [sampleFindingNoId] [verdictTrue]).2 0 (by simp)
      sampleFindingNoId rfl).1 rfl,
   ((C9_merge_frame [sampleFindingF1] [verdictF2]).2 0 (by simp)
      sampleFindingF1 rfl).2.1 ("f1".toList) rfl (by decide)⟩

/-- C4 counterexample: with two verdicts sharing id f1, merging after
swapping the verdict list changes the attached verdict (last write wins),
so the merge is not invariant under permutation of arbitrary verdict
lists. -/
theorem C4_counterexample :
    [verdictTrue, verdictFalse].Perm [verdictFalse, verdictTrue] ∧
    (merge_llm_results [sampleFindingF1] [verdictTrue, verdictFalse]).map
      (fun f => f.llm_is_secret) = [some false] ∧
    (merge_llm_results [sampleFindingF1] [verdictFalse, verdictTrue]).map
      (fun f => f.llm_is_secret) = [some true] ∧
    merge_llm_results [sampleFindingF1] [verdictTrue, verdictFalse] ≠
      merge_llm_results [sampleFindingF1] [verdictFalse, verdictTrue] := by
  refine ⟨List.Perm.swap _ _ _, rfl, rfl, fun h => ?_⟩
  have h2 := congrArg (List.map (fun f => f.llm_is_secret)) h
  exact absurd h2 (by decide)

/-- C4 amended: if the id-carrying verdicts have pairwise distinct ids,
the merge result is invariant under permutation of the verdict list (the
counterexample shows the restriction to distinct ids is necessary:
with duplicate ids the last verdict in list order wins). -/
theorem C4_merge_perm_invariant_of_nodup_ids (findings : List Finding)
    (l1 l2 : List Verdict) (hperm : l1.Perm l2)
    (hnd : (l1.filterMap (fun v => v.id)).Nodup) :
    merge_llm_results findings l1 = merge_llm_results findings l2 := by
  have hpt : ∀ f, mergeOne (resultsById l1) f = mergeOne (resultsById l2) f := by
    intro f
    rw [mergeOne, mergeOne]
    cases hid : f.id with
    | none => rfl
    | some fid =>
      dsimp only
      rw [resultsById_perm l1 l2 hperm hnd fid]
  rw [merge_llm_results, merge_llm_results,
    show mergeOne (resultsById l1) = mergeOne (resultsById l2) from funext hpt]

/-- Witness for the amended C4 on concrete distinct-id verdict lists. -/
theorem C4_witness :
    merge_llm_results [sampleFindingF1] [verdictTrue, verdictF2] =
      merge_llm_results [sampleFindingF1] [verdictF2, verdictTrue] :=
  C4_merge_perm_invariant_of_nodup_ids [sampleFindingF1]
    [verdictTrue, verdictF2] [verdictF2, verdictTrue]
    (List.Perm.swap _ _ _) (by decide)

/-- Decimal value of a digit string: parse-back used to prove `natDecimal`
injective. -/
def decVal (l : List Char) : Nat :=
  l.foldl (fun a c => 10 * a + (c.toNat - 48)) 0

lemma decVal_append_digit (xs : List Char) (c : Char) :
    decVal (xs ++ [c]) = 10 * decVal xs + (c.toNat - 48) := by
  rw [decVal, decVal, List.foldl_append, List.foldl_cons, List.foldl_nil]

lemma digitChar_toNat (d : Nat) (h : d < 10) : (digitChar d).toNat = 48 + d := by
  interval_cases d <;> rfl

lemma decVal_natDecimal (n : Nat) : decVal (natDecimal n) = n := by
  induction n using Nat.strong_induction_on with
  | _ n ih =>
    rw [natDecimal]
    by_cases h : n < 10
    · rw [dif_pos h, decVal, List.foldl_cons, List.foldl_nil,
        digitChar_toNat n h]
      omega
    · rw [dif_neg h, decVal_append_digit,
        ih (n / 10) (Nat.div_lt_self (by omega) (by omega)),
        digitChar_toNat (n % 10) (Nat.mod_lt n (by omega))]
      omega

lemma natDecimal_injective : Function.Injective natDecimal := by
  intro a b h
  have ha := decVal_natDecimal a
  rw [h, decVal_natDecimal] at ha
  exact ha.symm

lemma reviewId_injective : Function.Injective reviewId := by
  intro a b h
  rw [reviewId, reviewId] at h
  injection h with h1 h2
  exact natDecimal_injective h2

lemma buildPayloadAux_length (fs : List Finding) (k : Nat) :
    (buildPayloadAux k fs).1.length = fs.length ∧
    (buildPayloadAux k fs).2.length = fs.length := by
  induction fs generalizing k with
  | nil => exact ⟨rfl, rfl⟩
  | cons g rest ih =>
    rw [buildPayloadAux]
    exact ⟨by simp [(ih (k + 1)).1], by simp [(ih (k + 1)).2]⟩

lemma buildPayloadAux_get (fs : List Finding) (k i : Nat) (f : Finding)
    (hf : fs[i]? = some f) :
    (buildPayloadAux k fs).1[i]? =
      some ⟨reviewId (k + i), f.commit_hash, f.file_path, f.line,
            f.snippet, f.confidence⟩ ∧
    (buildPayloadAux k fs).2[i]? = some { f with id := some (reviewId (k + i)) } := by
  induction fs generalizing k i with
  | nil => simp at hf
  | cons g rest ih =>
    cases i with
    | zero =>
      rw [List.getElem?_cons_zero] at hf
      injection hf with hf
      subst hf
      refine ⟨?_, ?_⟩ <;>
        (rw [buildPayloadAux]; dsimp only;
         rw [List.getElem?_cons_zero, Nat.add_zero])
    | succ j =>
      rw [List.getElem?_cons_succ] at hf
      have hrec := ih (k + 1) j hf
      refine ⟨?_, ?_⟩
      · rw [buildPayloadAux]
        dsimp only
        rw [List.getElem?_cons_succ, show k + (j + 1) = (k + 1) + j by omega]
        exact hrec.1
      · rw [buildPayloadAux]
        dsimp only
        rw [List.getElem?_cons_succ, show k + (j + 1) = (k + 1) + j by omega]
        exact hrec.2

lemma mem_buildPayloadAux_ids (fs : List Finding) (k : Nat) (x : List Char)
    (hx : x ∈ (buildPayloadAux k fs).1.map (fun p => p.id)) :
    ∃ m, k ≤ m ∧ x = reviewId m := by
  induction fs generalizing k with
  | nil => simp [buildPayloadAux] at hx
  | cons g rest ih =>
    rw [buildPayloadAux] at hx
    dsimp only at hx
    rw [List.map_cons] at hx
    rcases List.mem_cons.mp hx with rfl | hx
    · exact ⟨k, le_refl k, rfl⟩
    · obtain ⟨m, hm, hxm⟩ := ih (k + 1) hx
      exact ⟨m, by omega, hxm⟩

lemma buildPayloadAux_ids_nodup (fs : List Finding) (k : Nat) :
    ((buildPayloadAux k fs).1.map (fun p => p.id)).Nodup := by
  induction fs generalizing k with
  | nil => simp [buildPayloadAux]
  | cons g rest ih =>
    rw [buildPayloadAux]
    dsimp only
    rw [List.map_cons, List.nodup_cons]
    refine ⟨fun hmem => ?_, ih (k + 1)⟩
    obtain ⟨m, hm, hxm⟩ := mem_buildPayloadAux_ids rest (k + 1) _ hmem
    have := reviewId_injective hxm
    omega

/-- C6: the payload builder numbers the candidates sequentially f1, f2, …
in list order, writes each id into the finding record, produces one
projected item per candidate carrying exactly id, commit hash, file path,
line, snippet and confidence (no finding type, no rationale), and the
assigned ids are pairwise distinct. -/
theorem C6_payload_builder (candidates : List Finding) :
    (build_llm_payload candidates).1.length = candidates.length ∧
    (build_llm_payload candidates).2.length = candidates.length ∧
    (∀ i, ∀ f : Finding, candidates[i]? = some f →
      (build_llm_payload candidates).1[i]? =
        some ⟨reviewId (1 + i), f.commit_hash, f.file_path, f.line,
              f.snippet, f.confidence⟩ ∧
      (build_llm_payload candidates).2[i]? =
        some { f with id := some (reviewId (1 + i)) }) ∧
    ((build_llm_payload candidates).1.map (fun p => p.id)).Nodup := by
  exact ⟨(buildPayloadAux_length candidates 1).1,
    (buildPayloadAux_length candidates 1).2,
    fun i f hf => buildPayloadAux_get candidates 1 i f hf,
    buildPayloadAux_ids_nodup candidates 1⟩

/-- Witness for C6 on a concrete one-candidate list. -/
theorem C6_witness :
    (build_llm_payload [sampleFindingNoId]).1[0]? =
      some ⟨reviewId 1, sampleFindingNoId.commit_hash,
            sampleFindingNoId.file_path, sampleFindingNoId.line,
            sampleFindingNoId.snippet, sampleFindingNoId.confidence⟩ ∧
    (build_llm_payload [sampleFindingNoId]).2[0]? =
      some { sampleFindingNoId with id := some (reviewId 1) } :=
  ⟨((C6_payload_builder [sampleFindingNoId]).2.2.1 0 sampleFindingNoId rfl).1,
   ((C6_payload_builder [sampleFindingNoId]).2.2.1 0 sampleFindingNoId rfl).2⟩

lemma mem_scanTextLines_line (ch fp : List Char) (n : Nat)
    (lines : List (List Char)) (f : Finding)
    (hf : f ∈ scanTextLines ch fp n lines) : n ≤ f.line := by
  induction lines generalizing n with
  | nil => simp [scanTextLines] at hf
  | cons l rest ih =>
    rw [scanTextLines] at hf
    cases hm : firstMatch REGEX_PATTERNS (rstripNL l) with
    | none =>
      rw [hm] at hf
      dsimp only at hf
      rw [List.nil_append] at hf
      have := ih (n + 1) hf
      omega
    | some r =>
      rw [hm] at hf
      dsimp only at hf
      rw [List.singleton_append] at hf
      rcases List.mem_cons.mp hf with rfl | hf
      · exact le_refl n
      · have := ih (n + 1) hf
        omega

lemma scanTextLines_filter_le_one (ch fp : List Char) (m : Nat)
    (lines : List (List Char)) (n : Nat) :
    ((scanTextLines ch fp n lines).filter (fun f => f.line == m)).length ≤ 1 := by
  induction lines generalizing n with
  | nil => simp [scanTextLines]
  | cons l rest ih =>
    rw [scanTextLines, List.filter_append, List.length_append]
    cases hfm : firstMatch REGEX_PATTERNS (rstripNL l) with
    | none =>
      dsimp only
      simp only [List.filter_nil, List.length_nil]
      have := ih (n + 1)
      omega
    | some r =>
      dsimp only
      by_cases hm : m = n
      · subst hm
        have htail : (scanTextLines ch fp (m + 1) rest).filter
            (fun f => f.line == m) = [] := by
          refine List.filter_eq_nil_iff.mpr fun f hf => ?_
          have := mem_scanTextLines_line ch fp (m + 1) rest f hf
          simp only [beq_iff_eq]
          omega
        rw [htail]
        have hsing : ((([mkTextFinding ch fp m (rstripNL l) r]) :
            List Finding).filter (fun f => f.line == m)).length ≤ 1 :=
          le_trans (List.length_filter_le _ _) (by simp)
        simp only [List.length_nil]
        omega
      · have hhead : (([mkTextFinding ch fp n (rstripNL l) r] :
            List Finding).filter (fun f => f.line == m)) = [] := by
          refine List.filter_eq_nil_iff.mpr fun f hf => ?_
          rw [List.mem_singleton.mp hf]
          simp only [beq_iff_eq, mkTextFinding]
          omega
        rw [hhead]
        have := ih (n + 1)
        simp only [List.length_nil]
        omega

lemma mem_scanDiffLines_line (src : List Char) (cur : Option (List Char))
    (n : Nat) (lines : List (List Char)) (f : Finding)
    (hf : f ∈ scanDiffLines src cur n lines) : n ≤ f.line := by
  induction lines generalizing n cur with
  | nil => simp [scanDiffLines] at hf
  | cons l rest ih =>
    rw [scanDiffLines] at hf
    rcases List.mem_append.mp hf with h | h
    · by_cases hp : (startsWith (pyStrip l) ['+'] &&
          !startsWith (pyStrip l) ['+', '+', '+']) = true
      · rw [if_pos hp] at h
        cases hm : firstMatch REGEX_PATTERNS (pyStrip l).tail with
        | none => rw [hm] at h; cases h
        | some r =>
          rw [hm] at h
          rw [List.mem_singleton.mp h]
          exact le_refl n
      · rw [if_neg hp] at h
        cases h
    · have := ih (updateCurrentFile cur l) (n + 1) h
      omega

lemma scanDiffLines_filter_le_one (src : List Char) (m : Nat)
    (cur : Option (List Char)) (lines : List (List Char)) (n : Nat) :
    ((scanDiffLines src cur n lines).filter (fun f => f.line == m)).length ≤ 1 := by
  induction lines generalizing n cur with
  | nil => simp [scanDiffLines]
  | cons l rest ih =>
    rw [scanDiffLines, List.filter_append, List.length_append]
    by_cases hp : (startsWith (pyStrip l) ['+'] &&
        !startsWith (pyStrip l) ['+', '+', '+']) = true
    · rw [if_pos hp]
      cases hfm : firstMatch REGEX_PATTERNS (pyStrip l).tail with
      | none =>
        dsimp only
        simp only [List.filter_nil, List.length_nil]
        have := ih (updateCurrentFile cur l) (n + 1)
        omega
      | some r =>
        dsimp only
        by_cases hm : m = n
        · subst hm
          have htail : (scanDiffLines src (updateCurrentFile cur l) (m + 1)
              rest).filter (fun f => f.line == m) = [] := by
            refine List.filter_eq_nil_iff.mpr fun f hf => ?_
            have := mem_scanDiffLines_line src _ (m + 1) rest f hf
            simp only [beq_iff_eq]
            omega
          rw [htail]
          have hsing : ((([mkDiffFinding src (updateCurrentFile cur l) m
              (pyStrip l).tail r]) : List Finding).filter
              (fun f => f.line == m)).length ≤ 1 :=
            le_trans (List.length_filter_le _ _) (by simp)
          simp only [List.length_nil]
          omega
        · have hhead : (([mkDiffFinding src (updateCurrentFile cur l) n
              (pyStrip l).tail r] : List Finding).filter
              (fun f => f.line == m)) = [] := by
            refine List.filter_eq_nil_iff.mpr fun f hf => ?_
            rw [List.mem_singleton.mp hf]
            simp only [beq_iff_eq, mkDiffFinding]
            omega
          rw [hhead]
          have := ih (updateCurrentFile cur l) (n + 1)
          simp only [List.length_nil]
          omega
    · rw [if_neg hp]
      simp only [List.filter_nil, List.length_nil]
      have := ih (updateCurrentFile cur l) (n + 1)
      omega

/-- C2: rule evaluation per line is first-match-wins in the fixed
priority order password, token, secret, and consequently both the text
scan and the diff scan produce at most one finding for any given line
number. -/
theorem C2_first_match_wins_at_most_one :
    (∀ l : List Char, firstMatch REGEX_PATTERNS l =
      (if passwordRule.search l then some passwordRule
       else if tokenRule.search l then some tokenRule
       else if secretRule.search l then some secretRule
       else none)) ∧
    (∀ (text fp : List Char) (ch : Option (List Char)) (n : Nat),
      ((scan_text_for_passwords text fp ch).filter
        (fun f => f.line == n)).length ≤ 1) ∧
    (∀ (d src : List Char) (n : Nat),
      ((scan_diff_for_passwords d src).filter
        (fun f => f.line == n)).length ≤ 1) := by
  refine ⟨fun l => rfl, ?_, ?_⟩
  · intro text fp ch n
    unfold scan_text_for_passwords
    exact scanTextLines_filter_le_one _ fp n (splitlines text) 1
  · intro d src n
    rw [scan_diff_for_passwords]
    exact scanDiffLines_filter_le_one src n none (splitlines d) 1

/-- C1: the end-to-end diff scan of a diff with header `+++ b/app.py` and
one added password line yields exactly one finding of kind
hardcoded_password at file app.py, with the `+`-stripped snippet and a
confidence equal to the confidence tier of the snippet's Shannon
entropy. -/
theorem C1_end_to_end_password_diff :
    scan_diff_for_passwords
        ("+++ b/app.py\n+password = \"Sup3rSecret!\"".toList)
        ("abc123".toList) =
      [{ commit_hash := "abc123".toList
         file_path := "app.py".toList
         line := 2
         snippet := "password = \"Sup3rSecret!\"".toList
         ftype := "hardcoded_password".toList
         confidence := some (entropy_to_confidence
           (shannon_entropy ("password = \"Sup3rSecret!\"".toList)))
         rationale := ⟨true, "password assignment".toList,
           shannon_entropy ("password = \"Sup3rSecret!\"".toList)⟩ }] := rfl

/-- C3 counterexample: after a `+++ /dev/null` header the scanner's
current file is the literal token `/dev/null` (the header does update the
state; only the `b/` stripping does not apply), so the finding's
file_path is `/dev/null`, not `unknown` as the claim states. -/
theorem C3_counterexample :
    (scan_diff_for_passwords
        ("+++ /dev/null\n+password = \"abcd1234\"".toList)
        ("abc123".toList)).map (fun f => f.file_path) =
      ["/dev/null".toList] ∧
    "/dev/null".toList ≠ "unknown".toList :=
  ⟨rfl, by decide⟩

/-- C3 amended: an added line appearing after a `+++ /dev/null`
file-header line yields a finding with file_path `/dev/null`: the header
still sets the current file to its second whitespace-delimited token, and
only the `b/`-prefix stripping fails to apply. -/
theorem C3_dev_null_sets_file_path :
    scan_diff_for_passwords
        ("+++ /dev/null\n+password = \"abcd1234\"".toList)
        ("abc123".toList) =
      [{ commit_hash := "abc123".toList
         file_path := "/dev/null".toList
         line := 2
         snippet := "password = \"abcd1234\"".toList
         ftype := "hardcoded_password".toList
         confidence := some (entropy_to_confidence
           (shannon_entropy ("password = \"abcd1234\"".toList)))
         rationale := ⟨true, "password assignment".toList,
           shannon_entropy ("password = \"abcd1234\"".toList)⟩ }] := rfl

lemma shannon_entropy_sum_form (s : List Char) (hs : s ≠ []) :
    shannon_entropy s =
      -∑ c ∈ s.toFinset, ((s.count c : ℝ) / s.length) *
        Real.logb 2 ((s.count c : ℝ) / s.length) := by
  rw [shannon_entropy, if_neg hs, Finset.sum_neg_distrib]

lemma shannon_entropy_le_logb_card (s : List Char) :
    shannon_entropy s ≤ Real.logb 2 (s.toFinset.card) := by
  by_cases hs : s = []
  · subst hs
    rw [shannon_entropy, if_pos rfl, List.toFinset_nil, Finset.card_empty,
      Nat.cast_zero, Real.logb_zero]
  · rw [shannon_entropy, if_neg hs]
    have hL : (0 : ℝ) < s.length := by
      have := List.length_pos.mpr hs
      exact_mod_cast this
    have hw_pos : ∀ c ∈ s.toFinset,
        (0 : ℝ) < (s.count c : ℝ) / s.length := by
      intro c hc
      exact div_pos
        (by exact_mod_cast List.count_pos_iff.mpr (List.mem_toFinset.mp hc)) hL
    have hsum : ∑ c ∈ s.toFinset, (s.count c : ℝ) / s.length = 1 := by
      rw [← Finset.sum_div]
      rw [div_eq_one_iff_eq (ne_of_gt hL)]
      rw [← Nat.cast_sum]
      exact_mod_cast List.sum_toFinset_count_eq_length s
    have jensen := (strictConcaveOn_log_Ioi.concaveOn).le_map_sum
      (w := fun c => (s.count c : ℝ) / s.length)
      (p := fun c => ((s.count c : ℝ) / s.length)⁻¹)
      (fun c hc => le_of_lt (hw_pos c hc)) hsum
      (fun c hc => Set.mem_Ioi.mpr (inv_pos.mpr (hw_pos c hc)))
    have hsum_inv : ∑ c ∈ s.toFinset,
        ((s.count c : ℝ) / s.length) • ((s.count c : ℝ) / s.length)⁻¹ =
        (s.toFinset.card : ℝ) := by
      rw [Finset.sum_congr rfl (fun c hc => by
        rw [smul_eq_mul, mul_inv_cancel₀ (ne_of_gt (hw_pos c hc))])]
      rw [Finset.sum_const, nsmul_eq_mul, mul_one]
    rw [hsum_inv] at jensen
    rw [Finset.sum_congr rfl (fun c hc => by
      rw [smul_eq_mul, Real.log_inv, mul_neg])] at jensen
    have hgoal : ∑ c ∈ s.toFinset,
        -(((s.count c : ℝ) / s.length) *
          Real.logb 2 ((s.count c : ℝ) / s.length)) =
        (∑ c ∈ s.toFinset,
          -(((s.count c : ℝ) / s.length) *
            Real.log ((s.count c : ℝ) / s.length))) / Real.log 2 := by
      rw [Finset.sum_div]
      refine Finset.sum_congr rfl fun c hc => ?_
      rw [Real.logb]
      ring
    rw [hgoal, Real.logb]
    have hlog2 : 0 < Real.log 2 := Real.log_pos (by norm_num)
    exact (div_le_div_iff_of_pos_right hlog2).mpr jensen

/-- C8: the entropy scorer is the Shannon entropy of the character
frequency distribution: zero on the empty string, the negated sum of
p times log2 p over distinct characters otherwise; it vanishes on any
repetition of a single character, and is bounded by log2 of the number of
distinct characters. -/
theorem C8_shannon_entropy_properties :
    shannon_entropy [] = 0 ∧
    (∀ s : List Char, s ≠ [] → shannon_entropy s =
      -∑ c ∈ s.toFinset, ((s.count c : ℝ) / s.length) *
        Real.logb 2 ((s.count c : ℝ) / s.length)) ∧
    (∀ (n : Nat) (c : Char), n ≠ 0 →
      shannon_entropy (List.replicate n c) = 0) ∧
    (∀ s : List Char, shannon_entropy s ≤ Real.logb 2 (s.toFinset.card)) := by
  refine ⟨rfl, shannon_entropy_sum_form, ?_, shannon_entropy_le_logb_card⟩
  intro n c hn
  have hne : List.replicate n c ≠ [] := by
    simp [List.replicate_eq_nil_iff, hn]
  rw [shannon_entropy, if_neg hne, List.toFinset_replicate_of_ne_zero hn,
    Finset.sum_singleton, List.count_replicate_self, List.length_replicate,
    div_self (by exact_mod_cast hn : (n : ℝ) ≠ 0), Real.logb_one]
  ring

/-- Witness for C8: the repeated-character and sum-form parts at concrete
inputs. -/
theorem C8_witness :
    shannon_entropy (List.replicate 2 'a') = 0 ∧
    shannon_entropy ['a'] =
      -∑ c ∈ (['a'] : List Char).toFinset,
        (((['a'] : List Char).count c : ℝ) / (['a'] : List Char).length) *
          Real.logb 2 (((['a'] : List Char).count c : ℝ) /
            (['a'] : List Char).length) :=
  ⟨C8_shannon_entropy_properties.2.2.1 2 'a' (by decide),
   C8_shannon_entropy_properties.2.1 ['a'] (by decide)⟩

end GitSecretScanner
